import Mathlib

/-!
Verification of the p2p-gossiping-app overlay protocol core.

This file gives a shallow embedding, in Lean 4, of the data model and the
operations of the gossip node implemented in src/main.rs (and its identical
module split in src/network/peer.rs, src/network/message.rs, src/utils.rs):

* the wire codec (serde_json encoding of the NetworkData envelope, newline
  framing),
* the shared peer directory (a HashSet of socket addresses) and every site
  that mutates it,
* one iteration of the accept-loop handshake,
* one step of a connection handler reader duty and writer duty,
* one gossip-emitter tick,
* one step of the dedup / recency filter (show_received_messages).

Stateful Rust tasks are embedded as explicit step functions over the state
they touch; the tokio broadcast channel is embedded by recording the list of
published relay items; wall-clock time is passed explicitly as a Nat of
seconds.  Rust u16 / u64 values are modelled as Nat (no arithmetic in the
embedded code can overflow them on the values the protocol produces).
-/

namespace P2P

/-- Socket address model: `std::net::SocketAddr` is used by the program only
as a comparable key built from an ip string and a port (`format!("127.0.0.1:{}", port)`,
`.port()`, equality, hashing), so it is embedded as that pair. -/
structure Addr where
  ip : String
  port : Nat
deriving DecidableEq, Repr

/-- Message struct from src/network/message.rs: `{content, from, timestamp}`. -/
structure Message where
  content : String
  «from» : Addr
  timestamp : Nat
deriving DecidableEq, Repr

/-- PeerInfo struct from src/network/message.rs: `{port, known_peers}`. -/
structure PeerInfo where
  port : Nat
  known_peers : List Addr
deriving DecidableEq, Repr

/-- NetworkData enum from src/network/message.rs, the wire envelope
(serde adjacently tagged: tag = "type", content = "data"). -/
inductive NetworkData where
  | Message (m : Message)
  | PeerInfo (p : PeerInfo)
deriving DecidableEq, Repr

/-! ### Decimal rendering of naturals (the digits serde_json emits for u16/u64) -/

/-- Digit character for a value below ten. -/
def digCh (d : Nat) : Char := Char.ofNat (48 + d)

/-- Decimal digit characters of `n`, most significant first, in front of `acc`.
The first argument is fuel; `natChars` supplies enough for any `n`. -/
def natCharsAux : Nat → Nat → List Char → List Char
  | 0, _, acc => acc
  | fuel + 1, n, acc =>
    if n < 10 then digCh n :: acc
    else natCharsAux fuel (n / 10) (digCh (n % 10) :: acc)

/-- Decimal digit characters of `n` (what serde_json writes for an integer). -/
def natChars (n : Nat) : List Char := natCharsAux (n + 1) n []

/-- Decimal string of `n`. -/
def natStr (n : Nat) : String := String.mk (natChars n)

/-- Numeric value of a big-endian list of decimal digit characters. -/
def digitsVal (cs : List Char) : Nat :=
  cs.foldl (fun a c => a * 10 + (c.toNat - 48)) 0

/-! ### JSON string escaping (serde_json's escaping of string fields) -/

/-- Hexadecimal digit character (lowercase, as serde_json emits). -/
def hexCh (d : Nat) : Char :=
  Char.ofNat (if d < 10 then 48 + d else 87 + d)

/-- Or the escape sequence serde_json emits for one character of a string
field: quote, backslash and the C0 control characters are escaped (short
forms for the common ones, `\u00XX` otherwise); all other characters pass
through unchanged. -/
def escCh (c : Char) : List Char :=
  if c = '"' then ['\\', '"']
  else if c = '\\' then ['\\', '\\']
  else if c = '\n' then ['\\', 'n']
  else if c = '\r' then ['\\', 'r']
  else if c = '\t' then ['\\', 't']
  else if c = '\x08' then ['\\', 'b']
  else if c = '\x0c' then ['\\', 'f']
  else if c.toNat < 32 then
    ['\\', 'u', '0', '0', hexCh (c.toNat / 16), hexCh (c.toNat % 16)]
  else [c]

/-- Escape every character of a string body. -/
def escChars : List Char → List Char
  | [] => []
  | c :: cs => escCh c ++ escChars cs

/-- Quoted JSON string literal for `s`. -/
def jstr (s : String) : String := String.mk ('"' :: escChars s.data ++ ['"'])

/-! ### The wire codec encoder (serde_json::to_string on NetworkData) -/

/-- Display form of a socket address, `ip:port`, the string serde emits for
a `SocketAddr` field. -/
def addrText (a : Addr) : String := a.ip ++ ":" ++ natStr a.port

/-- Comma-separated quoted address list, the body of a serialized
`Vec of SocketAddr`. -/
def joinAddrs : List Addr → String
  | [] => ""
  | [a] => jstr (addrText a)
  | a :: rest => jstr (addrText a) ++ "," ++ joinAddrs rest

/-- Encoding of the envelope, exactly the text serde_json::to_string
produces for NetworkData with `#[serde(tag = "type", content = "data")]`:
fields in declaration order, no interior whitespace. -/
def encode : NetworkData → String
  | NetworkData.Message m =>
    "\x7b\"type\":\"Message\",\"data\":\x7b\"content\":" ++ jstr m.content
      ++ ",\"from\":" ++ jstr (addrText m.«from»)
      ++ ",\"timestamp\":" ++ natStr m.timestamp ++ "\x7d\x7d"
  | NetworkData.PeerInfo p =>
    "\x7b\"type\":\"PeerInfo\",\"data\":\x7b\"port\":" ++ natStr p.port
      ++ ",\"known_peers\":[" ++ joinAddrs p.known_peers ++ "]\x7d\x7d"

/-! ### The wire codec decoder (serde_json::from_str on NetworkData)

The decoder models serde_json::from_str restricted to the canonical grammar
the encoder above produces (fields in declaration order, no interior
whitespace), with leading and trailing JSON whitespace tolerated as
from_str tolerates it; anything else fails, as from_str fails with a
serde_json::Error.  All parsing functions are structurally recursive so
that concrete inputs evaluate inside the kernel. -/

/-- JSON insignificant whitespace (the characters serde_json skips). -/
def isJsonWs (c : Char) : Bool :=
  c = ' ' || c = '\t' || c = '\n' || c = '\r'

/-- Value of one hexadecimal digit character, if it is one. -/
def hexVal (c : Char) : Option Nat :=
  if '0' ≤ c && c ≤ '9' then some (c.toNat - 48)
  else if 'a' ≤ c && c ≤ 'f' then some (c.toNat - 87)
  else if 'A' ≤ c && c ≤ 'F' then some (c.toNat - 55)
  else none

/-- Expect the literal characters `pat` at the front of the input; return
the rest of the input on match. -/
def expectLit : List Char → List Char → Option (List Char)
  | [], cs => some cs
  | _ :: _, [] => none
  | p :: ps, c :: cs => if c = p then expectLit ps cs else none

/-- Character named by a `u`-escape of four hexadecimal digits, if they are
hexadecimal digits naming a scalar below the surrogate range. -/
def parseUEsc (a b c d : Char) : Option Char :=
  match hexVal a, hexVal b, hexVal c, hexVal d with
  | some v1, some v2, some v3, some v4 =>
    let v := ((v1 * 16 + v2) * 16 + v3) * 16 + v4
    if v < 55296 then some (Char.ofNat v) else none
  | _, _, _, _ => none

/-- Parse the body of a JSON string after the opening quote, undoing the
escapes of `escCh`, accumulating characters in reverse. -/
def parseStrAux : List Char → List Char → Option (String × List Char)
  | _, [] => none
  | acc, c :: rest =>
    if c = '"' then some (String.mk acc.reverse, rest)
    else if c = '\\' then
      match rest with
      | [] => none
      | e :: rest1 =>
        if e = '"' then parseStrAux ('"' :: acc) rest1
        else if e = '\\' then parseStrAux ('\\' :: acc) rest1
        else if e = 'n' then parseStrAux ('\n' :: acc) rest1
        else if e = 'r' then parseStrAux ('\r' :: acc) rest1
        else if e = 't' then parseStrAux ('\t' :: acc) rest1
        else if e = 'b' then parseStrAux ('\x08' :: acc) rest1
        else if e = 'f' then parseStrAux ('\x0c' :: acc) rest1
        else if e = '/' then parseStrAux ('/' :: acc) rest1
        else if e = 'u' then
          match rest1 with
          | a :: b :: c2 :: d :: rest2 =>
            match parseUEsc a b c2 d with
            | some ch => parseStrAux (ch :: acc) rest2
            | none => none
          | _ => none
        else none
    else parseStrAux (c :: acc) rest

/-- Parse a quoted JSON string literal. -/
def parseQuoted : List Char → Option (String × List Char)
  | '"' :: rest => parseStrAux [] rest
  | _ => none

/-- Parse a nonempty run of decimal digits as a natural number. -/
def parseNatCs (cs : List Char) : Option (Nat × List Char) :=
  let ds := cs.takeWhile Char.isDigit
  if ds.isEmpty then none
  else some (digitsVal ds, cs.dropWhile Char.isDigit)

/-- Split the display form of a socket address at its last colon, the way
SocketAddr's Deserialize recovers (ip, port) from `ip:port`. -/
def splitAddr (s : String) : Option Addr :=
  let r := s.data.reverse
  let ds := r.takeWhile Char.isDigit
  match ds, r.dropWhile Char.isDigit with
  | [], _ => none
  | _, ':' :: ipRev => some ⟨String.mk ipRev.reverse, digitsVal ds.reverse⟩
  | _, _ => none

/-- Parse one quoted socket address. -/
def parseAddr (cs : List Char) : Option (Addr × List Char) :=
  match parseQuoted cs with
  | none => none
  | some (s, rest) =>
    match splitAddr s with
    | none => none
    | some a => some (a, rest)

/-- Parse the remaining elements of a JSON array of addresses, after the
first element: a run of `,addr` entries closed by a bracket.  The fuel
argument makes the recursion structural; the entry point supplies one unit
of fuel per remaining input character, which each iteration more than
consumes. -/
def parseAddrsLoop : Nat → List Addr → List Char → Option (List Addr × List Char)
  | _, acc, ']' :: rest => some (acc.reverse, rest)
  | fuel + 1, acc, ',' :: cs =>
    match parseAddr cs with
    | none => none
    | some (a, rest) => parseAddrsLoop fuel (a :: acc) rest
  | _, _, _ => none

/-- Parse a JSON array of quoted socket addresses, opening bracket already
consumed. -/
def parseAddrs (cs : List Char) : Option (List Addr × List Char) :=
  match cs with
  | [] => none
  | c :: cs1 =>
    if c = ']' then some ([], cs1)
    else
      match parseAddr (c :: cs1) with
      | none => none
      | some (a, rest) => parseAddrsLoop (rest.length + 1) [a] rest

/-- Parse the canonical envelope text after the common `{"type":"` head and
variant initial, for the Message variant. -/
def parseMsgBody (cs : List Char) : Option (NetworkData × List Char) :=
  match expectLit "essage\",\"data\":\x7b\"content\":".data cs with
  | none => none
  | some cs1 =>
    match parseQuoted cs1 with
    | none => none
    | some (content, cs2) =>
      match expectLit ",\"from\":".data cs2 with
      | none => none
      | some cs3 =>
        match parseAddr cs3 with
        | none => none
        | some (sender, cs4) =>
          match expectLit ",\"timestamp\":".data cs4 with
          | none => none
          | some cs5 =>
            match parseNatCs cs5 with
            | none => none
            | some (ts, cs6) =>
              match expectLit "\x7d\x7d".data cs6 with
              | none => none
              | some rest => some (NetworkData.Message ⟨content, sender, ts⟩, rest)

/-- Parse the canonical envelope text after the common `{"type":"` head and
variant initial, for the PeerInfo variant. -/
def parsePiBody (cs : List Char) : Option (NetworkData × List Char) :=
  match expectLit "eerInfo\",\"data\":\x7b\"port\":".data cs with
  | none => none
  | some cs1 =>
    match parseNatCs cs1 with
    | none => none
    | some (port, cs2) =>
      match expectLit ",\"known_peers\":[".data cs2 with
      | none => none
      | some cs3 =>
        match parseAddrs cs3 with
        | none => none
        | some (kps, cs4) =>
          match expectLit "\x7d\x7d".data cs4 with
          | none => none
          | some rest => some (NetworkData.PeerInfo ⟨port, kps⟩, rest)

/-- Parse one canonical NetworkData envelope, dispatching on the variant
tag's first letter. -/
def parseEnvelope (cs : List Char) : Option (NetworkData × List Char) :=
  match expectLit "\x7b\"type\":\"".data cs with
  | none => none
  | some cs1 =>
    match cs1 with
    | 'M' :: cs2 => parseMsgBody cs2
    | 'P' :: cs2 => parsePiBody cs2
    | _ => none

/-- Decoder for a whole input string, the model of
`serde_json::from_str::<NetworkData>`: one envelope surrounded by nothing
but JSON whitespace, or failure. -/
def decode (s : String) : Option NetworkData :=
  match parseEnvelope (s.data.dropWhile isJsonWs) with
  | none => none
  | some (x, rest) => if rest.all isJsonWs then some x else none

/-- Sanity: the decoder accepts a canonical Message envelope with the
trailing newline delimiter left in place. -/
theorem decode_message_sample :
    decode "\x7b\"type\":\"Message\",\"data\":\x7b\"content\":\"42\",\"from\":\"127.0.0.1:8080\",\"timestamp\":3\x7d\x7d\n"
      = some (NetworkData.Message ⟨"42", ⟨"127.0.0.1", 8080⟩, 3⟩) := by
  decide

/-- Sanity: the decoder rejects a first line that is not a wire envelope. -/
theorem decode_garbage_sample : decode "hello world\n" = none := by
  decide

/-! ### Peer directory and the operations that mutate it

The directory is `Arc<Mutex<HashSet<SocketAddr>>>` in the source; its value
is embedded as a `Finset Addr`.  Each mutation site of the source becomes
one function below, translated statement by statement. -/

/-- Or the directory after the accept-path handshake of `accept_connections`
(src/main.rs lines 160-170): reconstruct the peer's address as loopback
plus its declared port, insert it unconditionally, then insert each entry
of its known_peers that is not the local address. -/
def acceptHandshakeDir (selfAddr : Addr) (peers : Finset Addr) (pi : PeerInfo) : Finset Addr :=
  let peerAddr : Addr := ⟨"127.0.0.1", pi.port⟩
  pi.known_peers.foldl
    (fun acc kp => if kp ≠ selfAddr then insert kp acc else acc)
    (insert peerAddr peers)

/-- Or the directory after the dial-path handshake of `connect_to_peer`
(src/main.rs line 190): the dialed seed address is inserted
unconditionally. -/
def dialDir (peers : Finset Addr) (seed : Addr) : Finset Addr := insert seed peers

/-- Merge of a received PeerInfo.known_peers into the directory
(src/main.rs lines 224-231): insert each entry that is not the local
address. -/
def mergeKnownPeers (selfAddr : Addr) (peers : Finset Addr) (kps : List Addr) : Finset Addr :=
  kps.foldl (fun acc kp => if kp ≠ selfAddr then insert kp acc else acc) peers

/-! ### The accept loop, one iteration -/

/-- Outcome of one accepted connection in `accept_connections`:
the handshake read / decode `.unwrap()`s panic the accept task on failure,
a decodable first line of the wrong variant is discarded with no directory
change, and a PeerInfo first line records the peer and spawns a handler. -/
inductive AcceptOutcome where
  | panicked
  | dropped (peers : Finset Addr)
  | connected (peers : Finset Addr)
deriving DecidableEq

/-- One iteration of the accept loop after `listener.accept()` succeeds
(src/main.rs lines 152-174).  `firstLine` is what `read_line` produced:
`none` for an I/O error (the `.unwrap()` panics), otherwise the line text
(with its newline still attached, exactly as `read_line` leaves it, since
the source passes the unstripped buffer to serde_json::from_str). -/
def acceptStep (selfAddr : Addr) (peers : Finset Addr) (firstLine : Option String) : AcceptOutcome :=
  match firstLine with
  | none => AcceptOutcome.panicked
  | some buf =>
    match decode buf with
    | none => AcceptOutcome.panicked
    | some (NetworkData.PeerInfo pi) =>
      AcceptOutcome.connected (acceptHandshakeDir selfAddr peers pi)
    | some (NetworkData.Message _) => AcceptOutcome.dropped peers

/-! ### Connection handler: reader duty and writer duty -/

/-- Rust str::trim on the whitespace the protocol can produce (read_line
keeps the newline; trim strips surrounding whitespace). -/
def rustTrim (s : String) : String :=
  String.mk (((s.data.dropWhile isJsonWs).reverse.dropWhile isJsonWs).reverse)

/-- One reader-duty input: what `reader.read_line` produced this iteration.
`line` carries the raw text (a single line: read_line stops after the first
newline), `eof` is `Ok(0)`, `ioError` is `Err(_)`. -/
inductive ReadEvent where
  | eof
  | ioError
  | line (s : String)
deriving DecidableEq, Repr

/-- What the reader-duty loop does after one iteration: keep looping,
break out (EOF / error), or panic (the decode `.unwrap()` on a malformed
nonempty line). -/
inductive ReaderControl where
  | next
  | stop
  | panicked
deriving DecidableEq, Repr

/-- Result of one reader-duty iteration: the directory afterwards, the
relay items published by `tx.send`, and the loop control. -/
structure ReaderOutcome where
  peers : Finset Addr
  sends : List (String × Addr)
  control : ReaderControl
deriving DecidableEq

/-- One iteration of the reader duty of `handle_connection`
(src/main.rs lines 201-241).  `linkAddr` is this link's
`socket.peer_addr()` (for a dialed link, the seed address dialed; for an
accepted link, the remote end's ephemeral source endpoint). -/
def readerStep (selfAddr linkAddr : Addr) (peers : Finset Addr) (ev : ReadEvent) : ReaderOutcome :=
  match ev with
  | ReadEvent.eof => ⟨peers.erase linkAddr, [], ReaderControl.stop⟩
  | ReadEvent.ioError => ⟨peers.erase linkAddr, [], ReaderControl.stop⟩
  | ReadEvent.line s =>
    let msg := rustTrim s
    if msg.data.isEmpty then ⟨peers, [], ReaderControl.next⟩
    else
      match decode msg with
      | none => ⟨peers, [], ReaderControl.panicked⟩
      | some (NetworkData.Message m) =>
        let peers1 := if m.«from» ≠ selfAddr then insert m.«from» peers else peers
        ⟨peers1, [(msg, linkAddr)], ReaderControl.next⟩
      | some (NetworkData.PeerInfo pi) =>
        ⟨mergeKnownPeers selfAddr peers pi.known_peers, [], ReaderControl.next⟩

/-- One writer-duty iteration of `handle_connection` (src/main.rs lines
243-251): a received relay item `(msg, origin)` is written to the socket as
`msg + "\n"` when its origin differs from this link's address, else
nothing is written. -/
def writerStep (linkAddr : Addr) (item : String × Addr) : Option String :=
  if item.2 ≠ linkAddr then some (item.1 ++ "\n") else none

/-! ### Gossip emitter, one tick -/

/-- Relay payload the emitter builds for its fresh message
(src/main.rs line 93): the encoded envelope with a newline delimiter
appended. -/
def gossipMessageJson (m : Message) : String :=
  encode (NetworkData.Message m) ++ "\n"

/-- Relay items published for the fresh message on one emitter tick
(src/main.rs lines 101-105): one `tx.send((message_json, peer))` per
snapshot entry different from the local address, in snapshot order. -/
def gossipTickMsgSends (addr : Addr) (snapshot : List Addr) (json : String) :
    List (String × Addr) :=
  snapshot.foldl (fun acc p => if p ≠ addr then acc ++ [(json, p)] else acc) []

/-! ### Dedup / recency filter (show_received_messages) -/

/-- Recency test from src/utils.rs: accept when `now <= timestamp + 10`.
The source reads `now` from the system clock; the embedding passes it in. -/
def is_recent (now timestamp : Nat) : Bool := now ≤ timestamp + 10

/-- One iteration of `show_received_messages` (src/main.rs lines 133-146)
on a received relay payload `msg` at time `now`: `none` models the panic of
the decode `.unwrap()`; otherwise the new seen-set and the surfaced message
if one was printed. -/
def dedupStep (addr : Addr) (seen : Finset (String × Nat)) (msg : String) (now : Nat) :
    Option (Finset (String × Nat) × Option Message) :=
  match decode (rustTrim msg) with
  | none => none
  | some (NetworkData.PeerInfo _) => some (seen, none)
  | some (NetworkData.Message m) =>
    if m.«from» ≠ addr ∧ is_recent now m.timestamp then
      if (m.content, m.timestamp) ∈ seen then some (seen, none)
      else some (insert (m.content, m.timestamp) seen, some m)
    else some (seen, none)

/-- Whole run of the dedup filter over the relay payloads it receives,
each paired with the clock value when processed; a panic ends the task, so
nothing later is surfaced.  Returns the final seen-set and the surfaced
messages in order. -/
def dedupRun (addr : Addr) (seen : Finset (String × Nat)) :
    List (String × Nat) → Finset (String × Nat) × List Message
  | [] => (seen, [])
  | (msg, now) :: rest =>
    match dedupStep addr seen msg now with
    | none => (seen, [])
    | some (seen1, out) =>
      let r := dedupRun addr seen1 rest
      (r.1, out.toList ++ r.2)

/-- Count of surfaced-output events for one (content, timestamp) pair. -/
def surfacedCount (outs : List Message) (c : String) (t : Nat) : Nat :=
  outs.countP (fun m => m.content = c ∧ m.timestamp = t)

/-! ### Round-trip lemmas: decimal digits -/

theorem natCharsAux_append (fuel : Nat) : ∀ (n : Nat) (acc : List Char),
    natCharsAux fuel n acc = natCharsAux fuel n [] ++ acc := by
  induction fuel with
  | zero => intro n acc; simp [natCharsAux]
  | succ fuel ih =>
    intro n acc
    by_cases h : n < 10
    · simp [natCharsAux, h]
    · rw [natCharsAux, if_neg h, natCharsAux, if_neg h, ih, ih (n / 10) [digCh (n % 10)]]
      simp

theorem digCh_isDigit {d : Nat} (h : d < 10) : (digCh d).isDigit = true := by
  interval_cases d <;> decide

theorem digCh_val {d : Nat} (h : d < 10) : (digCh d).toNat - 48 = d := by
  interval_cases d <;> decide

theorem natCharsAux_digits (fuel : Nat) : ∀ (n : Nat) (c : Char),
    c ∈ natCharsAux fuel n [] → c.isDigit = true := by
  induction fuel with
  | zero => intro n c hc; simp [natCharsAux] at hc
  | succ fuel ih =>
    intro n c hc
    by_cases h : n < 10
    · rw [natCharsAux, if_pos h] at hc
      rw [List.mem_singleton.mp hc]
      exact digCh_isDigit h
    · rw [natCharsAux, if_neg h, natCharsAux_append] at hc
      rcases List.mem_append.mp hc with h1 | h2
      · exact ih _ _ h1
      · rw [List.mem_singleton.mp h2]
        exact digCh_isDigit (Nat.mod_lt _ (by norm_num))

theorem digitsVal_concat (ds : List Char) (c : Char) :
    digitsVal (ds ++ [c]) = digitsVal ds * 10 + (c.toNat - 48) := by
  simp [digitsVal, List.foldl_append]

theorem digitsVal_natCharsAux (fuel : Nat) : ∀ (n : Nat), n < 10 ^ fuel →
    digitsVal (natCharsAux fuel n []) = n := by
  induction fuel with
  | zero =>
    intro n h
    interval_cases n
    simp [natCharsAux, digitsVal]
  | succ fuel ih =>
    intro n h
    by_cases h10 : n < 10
    · rw [natCharsAux, if_pos h10]
      have := digCh_val h10
      simp [digitsVal]
      omega
    · have hdiv : n / 10 < 10 ^ fuel := by
        rw [Nat.div_lt_iff_lt_mul (by norm_num)]
        calc n < 10 ^ (fuel + 1) := h
        _ = 10 ^ fuel * 10 := by ring
      rw [natCharsAux, if_neg h10, natCharsAux_append, digitsVal_concat, ih _ hdiv,
        digCh_val (Nat.mod_lt _ (by norm_num))]
      omega

theorem digitsVal_natChars (n : Nat) : digitsVal (natChars n) = n := by
  have hn : n < 10 ^ (n + 1) :=
    (Nat.lt_pow_self (by norm_num) n).trans_le (Nat.pow_le_pow_right (by norm_num) (Nat.le_succ n))
  exact digitsVal_natCharsAux (n + 1) n hn

theorem natChars_digits {n : Nat} {c : Char} (hc : c ∈ natChars n) : c.isDigit = true :=
  natCharsAux_digits (n + 1) n c hc

theorem natChars_ne_nil (n : Nat) : natChars n ≠ [] := by
  rw [natChars, natCharsAux]
  by_cases h : n < 10
  · simp [h]
  · rw [if_neg h, natCharsAux_append]
    simp

theorem parseNatCs_natChars (n : Nat) (rest : List Char)
    (h : ∀ c ∈ rest.head?, c.isDigit = false) :
    parseNatCs (natChars n ++ rest) = some (n, rest) := by
  have htails : rest.takeWhile Char.isDigit = [] ∧ rest.dropWhile Char.isDigit = rest := by
    cases rest with
    | nil => simp
    | cons c cs =>
      have hc : c.isDigit = false := h c (by simp)
      exact ⟨List.takeWhile_cons_of_neg (by simp [hc]), List.dropWhile_cons_of_neg (by simp [hc])⟩
  have hself : (natChars n).takeWhile Char.isDigit = natChars n :=
    List.takeWhile_eq_self_iff.mpr (fun c hc => natChars_digits hc)
  have hnil : (natChars n).dropWhile Char.isDigit = [] :=
    List.dropWhile_eq_nil_iff.mpr (fun c hc => natChars_digits hc)
  rw [parseNatCs, List.takeWhile_append, List.dropWhile_append, hself, hnil]
  simp [htails.1, htails.2, natChars_ne_nil n, digitsVal_natChars]

/-! ### Round-trip lemmas: JSON string escaping -/

theorem hexVal_hexCh {d : Nat} (h : d < 16) : hexVal (hexCh d) = some d := by
  interval_cases d <;> decide

theorem parseStrAux_escCh (c : Char) (acc rest : List Char) :
    parseStrAux acc (escCh c ++ rest) = parseStrAux (c :: acc) rest := by
  rw [escCh]
  by_cases e1 : c = '"'
  · subst e1
    rw [if_pos rfl]
    simp only [List.cons_append, List.nil_append]
    conv_lhs => rw [parseStrAux.eq_def]
    simp +decide
  rw [if_neg e1]
  by_cases e2 : c = '\\'
  · subst e2
    rw [if_pos rfl]
    simp only [List.cons_append, List.nil_append]
    conv_lhs => rw [parseStrAux.eq_def]
    simp +decide
  rw [if_neg e2]
  by_cases e3 : c = '\n'
  · subst e3
    rw [if_pos rfl]
    simp only [List.cons_append, List.nil_append]
    conv_lhs => rw [parseStrAux.eq_def]
    simp +decide
  rw [if_neg e3]
  by_cases e4 : c = '\r'
  · subst e4
    rw [if_pos rfl]
    simp only [List.cons_append, List.nil_append]
    conv_lhs => rw [parseStrAux.eq_def]
    simp +decide
  rw [if_neg e4]
  by_cases e5 : c = '\t'
  · subst e5
    rw [if_pos rfl]
    simp only [List.cons_append, List.nil_append]
    conv_lhs => rw [parseStrAux.eq_def]
    simp +decide
  rw [if_neg e5]
  by_cases e6 : c = '\x08'
  · subst e6
    rw [if_pos rfl]
    simp only [List.cons_append, List.nil_append]
    conv_lhs => rw [parseStrAux.eq_def]
    simp +decide
  rw [if_neg e6]
  by_cases e7 : c = '\x0c'
  · subst e7
    rw [if_pos rfl]
    simp only [List.cons_append, List.nil_append]
    conv_lhs => rw [parseStrAux.eq_def]
    simp +decide
  rw [if_neg e7]
  by_cases e8 : c.toNat < 32
  · rw [if_pos e8]
    have v1 : hexVal '0' = some 0 := by decide
    have v2 : hexVal (hexCh (c.toNat / 16)) = some (c.toNat / 16) := hexVal_hexCh (by omega)
    have v3 : hexVal (hexCh (c.toNat % 16)) = some (c.toNat % 16) :=
      hexVal_hexCh (Nat.mod_lt _ (by norm_num))
    simp only [List.cons_append, List.nil_append]
    conv_lhs => rw [parseStrAux.eq_def]
    simp +decide [parseUEsc, v1, v2, v3]
    have hv : c.toNat / 16 * 16 + c.toNat % 16 = c.toNat := by omega
    rw [hv, if_pos (by omega : c.toNat < 55296), Char.ofNat_toNat]
  · rw [if_neg e8]
    simp only [List.cons_append, List.nil_append]
    conv_lhs => rw [parseStrAux.eq_def]
    simp [e1, e2]

theorem parseStrAux_escChars (cs : List Char) : ∀ (acc rest : List Char),
    parseStrAux acc (escChars cs ++ '"' :: rest) = some (String.mk (acc.reverse ++ cs), rest) := by
  induction cs with
  | nil =>
    intro acc rest
    rw [escChars, List.nil_append]
    conv_lhs => rw [parseStrAux.eq_def]
    simp +decide
  | cons c cs ih =>
    intro acc rest
    rw [escChars, List.append_assoc, parseStrAux_escCh, ih]
    simp

theorem jstr_data (s : String) : (jstr s).data = '"' :: (escChars s.data ++ ['"']) := rfl

theorem parseQuoted_jstr (s : String) (rest : List Char) :
    parseQuoted ('"' :: (escChars s.data ++ '"' :: rest)) = some (s, rest) := by
  rw [parseQuoted, parseStrAux_escChars]
  simp

/-! ### Round-trip lemmas: socket addresses and address lists -/

theorem splitAddr_addrText (a : Addr) : splitAddr (addrText a) = some a := by
  obtain ⟨ip, p⟩ := a
  have hdata : (addrText ⟨ip, p⟩).data = ip.data ++ ':' :: natChars p := by
    simp [addrText, natStr, String.data_append]
  have hall : ∀ c ∈ (natChars p).reverse, Char.isDigit c = true := by
    intro c hc
    exact natChars_digits (List.mem_reverse.mp hc)
  have hrev : (ip.data ++ ':' :: natChars p).reverse
      = (natChars p).reverse ++ ':' :: ip.data.reverse := by
    simp
  have htw : List.takeWhile Char.isDigit ((natChars p).reverse ++ ':' :: ip.data.reverse)
      = (natChars p).reverse := by
    rw [List.takeWhile_append, List.takeWhile_eq_self_iff.mpr hall,
      List.takeWhile_cons_of_neg (by decide)]
    simp
  have hdw : List.dropWhile Char.isDigit ((natChars p).reverse ++ ':' :: ip.data.reverse)
      = ':' :: ip.data.reverse := by
    rw [List.dropWhile_append, List.dropWhile_eq_nil_iff.mpr hall,
      List.dropWhile_cons_of_neg (by decide)]
    simp
  rw [splitAddr, hdata, hrev]
  simp only [htw, hdw]
  obtain ⟨d, t, ht⟩ : ∃ d t, (natChars p).reverse = d :: t := by
    cases hn : (natChars p).reverse with
    | nil => exact absurd (by simpa using congrArg List.reverse hn) (natChars_ne_nil p)
    | cons d t => exact ⟨d, t, rfl⟩
  rw [ht]
  have hval : digitsVal (t.reverse ++ [d]) = p := by
    have hrr : t.reverse ++ [d] = natChars p := by
      rw [show t.reverse ++ [d] = (d :: t).reverse from (List.reverse_cons d t).symm,
        ← ht, List.reverse_reverse]
    rw [hrr, digitsVal_natChars]
  simp [hval]

theorem expectLit_append (xs rest : List Char) : expectLit xs (xs ++ rest) = some rest := by
  induction xs with
  | nil => simp [expectLit]
  | cons x xs ih => simp [expectLit, ih]

theorem parseAddr_jstr (a : Addr) (rest : List Char) :
    parseAddr ('"' :: (escChars (addrText a).data ++ '"' :: rest)) = some (a, rest) := by
  rw [parseAddr, parseQuoted_jstr]
  simp [splitAddr_addrText]

/-- Tail of a serialized address list: the comma-prefixed entries after the
first, as characters (a proof-side view of `joinAddrs`). -/
def joinTailChars : List Addr → List Char
  | [] => []
  | a :: t => ',' :: ((jstr (addrText a)).data ++ joinTailChars t)

theorem joinAddrs_data (a : Addr) (l : List Addr) :
    (joinAddrs (a :: l)).data = (jstr (addrText a)).data ++ joinTailChars l := by
  induction l generalizing a with
  | nil => simp [joinAddrs, joinTailChars]
  | cons b t ih =>
    have hj : joinAddrs (a :: b :: t) = jstr (addrText a) ++ "," ++ joinAddrs (b :: t) := rfl
    rw [hj, joinTailChars, String.data_append, String.data_append, ih b]
    simp

theorem parseAddrsLoop_join (l : List Addr) : ∀ (fuel : Nat) (acc : List Addr) (rest : List Char),
    l.length < fuel →
    parseAddrsLoop fuel acc (joinTailChars l ++ ']' :: rest) = some (acc.reverse ++ l, rest) := by
  induction l with
  | nil =>
    intro fuel acc rest _
    simp [joinTailChars, parseAddrsLoop]
  | cons a t ih =>
    intro fuel acc rest hf
    match fuel, hf with
    | fuel + 1, hf =>
      rw [joinTailChars]
      simp only [List.cons_append, List.append_assoc]
      rw [parseAddrsLoop, jstr_data]
      simp only [List.cons_append, List.append_assoc, List.singleton_append, List.nil_append]
      rw [parseAddr_jstr]
      simp [ih fuel (a :: acc) rest (by simpa using Nat.lt_of_succ_lt_succ hf)]

theorem parseAddrs_join (l : List Addr) (rest : List Char) :
    parseAddrs ((joinAddrs l).data ++ ']' :: rest) = some (l, rest) := by
  cases l with
  | nil =>
    show parseAddrs (']' :: rest) = some ([], rest)
    simp [parseAddrs]
  | cons a t =>
    rw [joinAddrs_data, jstr_data]
    simp only [List.cons_append, List.append_assoc, List.singleton_append, List.nil_append]
    rw [parseAddrs, if_neg (by decide)]
    rw [parseAddr_jstr]
    show parseAddrsLoop ((joinTailChars t ++ ']' :: rest).length + 1) [a]
      (joinTailChars t ++ ']' :: rest) = some (a :: t, rest)
    have hlen : t.length < (joinTailChars t ++ ']' :: rest).length + 1 := by
      have : t.length ≤ (joinTailChars t).length := by
        clear rest
        induction t with
        | nil => simp [joinTailChars]
        | cons b u ihh => simp [joinTailChars]; omega
      simp
      omega
    rw [parseAddrsLoop_join t _ [a] rest hlen]
    simp

/-! ### Round-trip lemmas: the whole envelope -/

theorem parseEnvelope_encode (x : NetworkData) (rest : List Char) :
    parseEnvelope ((encode x).data ++ rest) = some (x, rest) := by
  cases x with
  | Message m =>
    obtain ⟨content, sender, ts⟩ := m
    rw [encode]
    have hnat : (natStr ts).data = natChars ts := rfl
    simp +decide [parseEnvelope, parseMsgBody, expectLit, String.data_append, hnat,
      jstr_data, parseQuoted_jstr, parseAddr_jstr, parseAddrs_join,
      parseNatCs_natChars ts ('\x7d' :: '\x7d' :: rest) (by intro c hc; simp at hc; subst hc; decide)]
  | PeerInfo p =>
    obtain ⟨port, kps⟩ := p
    rw [encode]
    have hnat : (natStr port).data = natChars port := rfl
    simp +decide [parseEnvelope, parsePiBody, expectLit, String.data_append, hnat,
      jstr_data, parseQuoted_jstr, parseAddr_jstr, parseAddrs_join,
      parseNatCs_natChars port (',' :: '\"' :: 'k' :: 'n' :: 'o' :: 'w' :: 'n' :: '_' :: 'p' :: 'e' :: 'e' :: 'r' :: 's' :: '\"' :: ':' :: '[' :: ((joinAddrs kps).data ++ ']' :: '\x7d' :: '\x7d' :: rest)) (by intro c hc; simp at hc; subst hc; decide)]

theorem decode_encode (x : NetworkData) : decode (encode x) = some x := by
  have hmain := parseEnvelope_encode x []
  rw [List.append_nil] at hmain
  have hhead : ∀ c ∈ (encode x).data.head?, isJsonWs c = false := by
    cases x <;> (rw [encode]; simp +decide [String.data_append])
  have hdrop : (encode x).data.dropWhile isJsonWs = (encode x).data := by
    cases he : (encode x).data with
    | nil => rfl
    | cons c t =>
      have hc : isJsonWs c = false := by
        apply hhead
        rw [he]
        simp
      simp [List.dropWhile_cons, hc]
  rw [decode, hdrop, hmain]
  rfl

/-! ### Directory lemmas -/

theorem mergeKnownPeers_mono (selfAddr : Addr) : ∀ (kps : List Addr) (peers : Finset Addr),
    peers ⊆ mergeKnownPeers selfAddr peers kps := by
  intro kps
  induction kps with
  | nil => intro peers; simp [mergeKnownPeers]
  | cons kp t ih =>
    intro peers
    rw [mergeKnownPeers, List.foldl_cons]
    refine subset_trans ?_ (ih (if kp ≠ selfAddr then insert kp peers else peers))
    split
    · exact Finset.subset_insert kp peers
    · exact subset_rfl

theorem mergeKnownPeers_self_not_mem (selfAddr : Addr) : ∀ (kps : List Addr) (peers : Finset Addr),
    selfAddr ∉ peers → selfAddr ∉ mergeKnownPeers selfAddr peers kps := by
  intro kps
  induction kps with
  | nil => intro peers h; simpa [mergeKnownPeers] using h
  | cons kp t ih =>
    intro peers h
    rw [mergeKnownPeers, List.foldl_cons]
    refine ih (if kp ≠ selfAddr then insert kp peers else peers) ?_
    split
    · next hkp =>
      intro hmem
      rcases Finset.mem_insert.mp hmem with he | he
      · exact hkp he.symm
      · exact h he
    · exact h

theorem acceptHandshakeDir_eq (selfAddr : Addr) (peers : Finset Addr) (pi : PeerInfo) :
    acceptHandshakeDir selfAddr peers pi
      = mergeKnownPeers selfAddr (insert ⟨"127.0.0.1", pi.port⟩ peers) pi.known_peers := rfl

theorem acceptHandshakeDir_mono (selfAddr : Addr) (peers : Finset Addr) (pi : PeerInfo) :
    peers ⊆ acceptHandshakeDir selfAddr peers pi := by
  rw [acceptHandshakeDir_eq]
  exact subset_trans (Finset.subset_insert _ peers) (mergeKnownPeers_mono _ _ _)

theorem readerStep_mono_line (selfAddr linkAddr : Addr) (peers : Finset Addr) (s : String) :
    peers ⊆ (readerStep selfAddr linkAddr peers (ReadEvent.line s)).peers := by
  rw [readerStep]
  split
  · exact subset_rfl
  · cases hd : decode (rustTrim s) with
    | none => simp [hd]
    | some nd =>
      cases nd with
      | Message m =>
        simp only [hd]
        split
        · exact Finset.subset_insert _ peers
        · exact subset_rfl
      | PeerInfo pi =>
        simp only [hd]
        exact mergeKnownPeers_mono selfAddr pi.known_peers peers

theorem readerStep_sends_origin (selfAddr linkAddr : Addr) (peers : Finset Addr) (ev : ReadEvent) :
    ∀ item ∈ (readerStep selfAddr linkAddr peers ev).sends, item.2 = linkAddr := by
  intro item hitem
  cases ev with
  | eof => simp [readerStep] at hitem
  | ioError => simp [readerStep] at hitem
  | line s =>
    rw [readerStep] at hitem
    split at hitem
    · simp at hitem
    · cases hd : decode (rustTrim s) with
      | none => simp [hd] at hitem
      | some nd =>
        cases nd with
        | Message m =>
          simp [hd] at hitem
          simp [hitem]
        | PeerInfo pi => simp [hd] at hitem

theorem readerStep_sends_payload (selfAddr linkAddr : Addr) (peers : Finset Addr) (s : String) :
    ∀ item ∈ (readerStep selfAddr linkAddr peers (ReadEvent.line s)).sends,
      item.1 = rustTrim s := by
  intro item hitem
  rw [readerStep] at hitem
  split at hitem
  · simp at hitem
  · cases hd : decode (rustTrim s) with
    | none => simp [hd] at hitem
    | some nd =>
      cases nd with
      | Message m =>
        simp [hd] at hitem
        simp [hitem]
      | PeerInfo pi => simp [hd] at hitem

/-! ### No-newline lemmas (for the framing claims) -/

theorem hexCh_ne_newline {d : Nat} (h : d < 16) : hexCh d ≠ '\n' := by
  interval_cases d <;> decide

theorem escCh_no_newline (c : Char) : '\n' ∉ escCh c := by
  rw [escCh]
  split_ifs with e1 e2 e3 e4 e5 e6 e7 e8
  · decide
  · decide
  · decide
  · decide
  · decide
  · decide
  · decide
  · intro hmem
    have h1 : hexCh (c.toNat / 16) ≠ '\n' := hexCh_ne_newline (by omega)
    have h2 : hexCh (c.toNat % 16) ≠ '\n' := hexCh_ne_newline (Nat.mod_lt _ (by norm_num))
    simp only [List.mem_cons, List.mem_singleton, List.not_mem_nil, or_false] at hmem
    rcases hmem with h | h | h | h | h | h
    · exact absurd h (by decide)
    · exact absurd h (by decide)
    · exact absurd h (by decide)
    · exact absurd h (by decide)
    · exact h1 h.symm
    · exact h2 h.symm
  · intro hmem
    rw [List.mem_singleton] at hmem
    exact e3 hmem.symm

theorem escChars_no_newline : ∀ (cs : List Char), '\n' ∉ escChars cs := by
  intro cs
  induction cs with
  | nil => simp [escChars]
  | cons c t ih =>
    rw [escChars]
    intro hmem
    rcases List.mem_append.mp hmem with h | h
    · exact escCh_no_newline c h
    · exact ih h

theorem jstr_no_newline (s : String) : '\n' ∉ (jstr s).data := by
  rw [jstr_data]
  intro hmem
  rcases List.mem_cons.mp hmem with h | h
  · exact absurd h (by decide)
  rcases List.mem_append.mp h with h | h
  · exact escChars_no_newline s.data h
  · rw [List.mem_singleton] at h
    exact absurd h (by decide)

theorem natChars_no_newline (n : Nat) : '\n' ∉ natChars n := by
  intro hmem
  have := natChars_digits hmem
  simp at this

theorem joinTailChars_no_newline : ∀ (l : List Addr), '\n' ∉ joinTailChars l := by
  intro l
  induction l with
  | nil => simp [joinTailChars]
  | cons a t ih =>
    rw [joinTailChars]
    intro hmem
    rcases List.mem_cons.mp hmem with h | h
    · exact absurd h (by decide)
    rcases List.mem_append.mp h with h | h
    · exact jstr_no_newline (addrText a) h
    · exact ih h

theorem joinAddrs_no_newline : ∀ (l : List Addr), '\n' ∉ (joinAddrs l).data := by
  intro l
  cases l with
  | nil => simp [joinAddrs]
  | cons a t =>
    rw [joinAddrs_data]
    intro hmem
    rcases List.mem_append.mp hmem with h | h
    · exact jstr_no_newline (addrText a) h
    · exact joinTailChars_no_newline t h

theorem encode_no_newline (x : NetworkData) : '\n' ∉ (encode x).data := by
  cases x with
  | Message m =>
    rw [encode]
    simp only [String.data_append]
    intro hmem
    simp only [List.mem_append] at hmem
    rcases hmem with (((((h | h) | h) | h) | h) | h) | h
    · revert h; decide
    · exact jstr_no_newline m.content h
    · revert h; decide
    · exact jstr_no_newline (addrText m.«from») h
    · revert h; decide
    · exact natChars_no_newline m.timestamp h
    · revert h; decide
  | PeerInfo p =>
    rw [encode]
    simp only [String.data_append]
    intro hmem
    simp only [List.mem_append] at hmem
    rcases hmem with (((h | h) | h) | h) | h
    · revert h; decide
    · exact natChars_no_newline p.port h
    · revert h; decide
    · exact joinAddrs_no_newline p.known_peers h
    · revert h; decide

/-! ### Dedup filter lemmas -/

theorem dedupStep_inv (addr : Addr) (seen : Finset (String × Nat)) (msg : String) (now : Nat)
    (seen1 : Finset (String × Nat)) (out : Option Message)
    (h : dedupStep addr seen msg now = some (seen1, out)) :
    seen ⊆ seen1 ∧
      ∀ m, out = some m →
        (m.content, m.timestamp) ∉ seen ∧ seen1 = insert (m.content, m.timestamp) seen := by
  rw [dedupStep] at h
  split at h
  · cases h
  · simp only [Option.some.injEq, Prod.mk.injEq] at h
    obtain ⟨rfl, rfl⟩ := h
    exact ⟨subset_rfl, fun m hm => by cases hm⟩
  · rename_i m0
    split_ifs at h with hcond hseen
    · simp only [Option.some.injEq, Prod.mk.injEq] at h
      obtain ⟨rfl, rfl⟩ := h
      exact ⟨subset_rfl, fun m hm => by cases hm⟩
    · simp only [Option.some.injEq, Prod.mk.injEq] at h
      obtain ⟨rfl, rfl⟩ := h
      refine ⟨Finset.subset_insert _ seen, ?_⟩
      intro m hm
      cases hm
      exact ⟨hseen, rfl⟩
    · simp only [Option.some.injEq, Prod.mk.injEq] at h
      obtain ⟨rfl, rfl⟩ := h
      exact ⟨subset_rfl, fun m hm => by cases hm⟩

theorem dedupRun_zero_of_mem (addr : Addr) : ∀ (events : List (String × Nat))
    (seen : Finset (String × Nat)) (c : String) (t : Nat),
    (c, t) ∈ seen → surfacedCount (dedupRun addr seen events).2 c t = 0 := by
  intro events
  induction events with
  | nil =>
    intro seen c t h
    simp [dedupRun, surfacedCount]
  | cons ev rest ih =>
    intro seen c t h
    obtain ⟨msg, now⟩ := ev
    rw [dedupRun]
    cases hstep : dedupStep addr seen msg now with
    | none => simp [surfacedCount]
    | some pr =>
      obtain ⟨seen1, out⟩ := pr
      obtain ⟨hsub, hout⟩ := dedupStep_inv addr seen msg now seen1 out hstep
      have hrest := ih seen1 c t (hsub h)
      cases out with
      | none =>
        simp only [surfacedCount] at hrest ⊢
        simpa [List.countP_append] using hrest
      | some m =>
        obtain ⟨hnot, _⟩ := hout m rfl
        have hne : ¬(m.content = c ∧ m.timestamp = t) := by
          rintro ⟨h1, h2⟩
          exact hnot (by rw [h1, h2]; exact h)
        simp only [surfacedCount] at hrest ⊢
        simp [List.countP_append, List.countP_cons, hne]
        simpa using hrest

theorem dedupRun_le_one (addr : Addr) : ∀ (events : List (String × Nat))
    (seen : Finset (String × Nat)) (c : String) (t : Nat),
    surfacedCount (dedupRun addr seen events).2 c t ≤ 1 := by
  intro events
  induction events with
  | nil =>
    intro seen c t
    simp [dedupRun, surfacedCount]
  | cons ev rest ih =>
    intro seen c t
    obtain ⟨msg, now⟩ := ev
    rw [dedupRun]
    cases hstep : dedupStep addr seen msg now with
    | none => simp [surfacedCount]
    | some pr =>
      obtain ⟨seen1, out⟩ := pr
      obtain ⟨hsub, hout⟩ := dedupStep_inv addr seen msg now seen1 out hstep
      cases out with
      | none =>
        have hrest := ih seen1 c t
        simp only [surfacedCount] at hrest ⊢
        simpa [List.countP_append] using hrest
      | some m =>
        obtain ⟨hnot, hins⟩ := hout m rfl
        by_cases hpair : m.content = c ∧ m.timestamp = t
        · have hzero := dedupRun_zero_of_mem addr rest seen1 c t
            (by rw [hins, ← hpair.1, ← hpair.2]; exact Finset.mem_insert_self _ _)
          simp only [surfacedCount] at hzero ⊢
          simp [List.countP_append, List.countP_cons, hpair]
          simpa using hzero
        · have hrest := ih seen1 c t
          simp only [surfacedCount] at hrest ⊢
          simpa [List.countP_append, List.countP_cons, hpair] using hrest

/-! ### Auxiliary: trimming preserves character membership -/

theorem rustTrim_mem_subset (s : String) : ∀ c ∈ (rustTrim s).data, c ∈ s.data := by
  intro c hc
  rw [rustTrim] at hc
  simp only [List.mem_reverse] at hc
  have h1 : c ∈ (s.data.dropWhile isJsonWs).reverse :=
    (List.dropWhile_sublist isJsonWs).subset hc
  rw [List.mem_reverse] at h1
  exact (List.dropWhile_sublist isJsonWs).subset h1

/-! ### Claim theorems -/

/-- Claim C1, counterexample: the handshake insert of the accept path and
the seed insert of the dial path do not filter out the local address.  A
remote peer declaring the local port (or a seed equal to the local
address) puts the node's own address into its own directory. -/
theorem accept_and_dial_insert_self :
    (⟨"127.0.0.1", 9000⟩ : Addr) ∈ acceptHandshakeDir ⟨"127.0.0.1", 9000⟩ ∅ ⟨9000, []⟩ ∧
    (⟨"127.0.0.1", 9000⟩ : Addr) ∈ dialDir ∅ ⟨"127.0.0.1", 9000⟩ := by
  decide

/-- Claim C1, amended: the known_peers merges, the inbound Message.from
insert and every reader-duty step keep the local address out of the
directory; the accept-handshake insert and the dial seed insert only do so
when the address they insert unconditionally is not the local address. -/
theorem self_never_in_directory (selfAddr link seed : Addr) (peers : Finset Addr)
    (pi : PeerInfo) (ev : ReadEvent) (kps : List Addr) (h : selfAddr ∉ peers) :
    selfAddr ∉ mergeKnownPeers selfAddr peers kps ∧
    selfAddr ∉ (readerStep selfAddr link peers ev).peers ∧
    (seed ≠ selfAddr → selfAddr ∉ dialDir peers seed) ∧
    ((⟨"127.0.0.1", pi.port⟩ : Addr) ≠ selfAddr →
      selfAddr ∉ acceptHandshakeDir selfAddr peers pi) := by
  refine ⟨mergeKnownPeers_self_not_mem selfAddr kps peers h, ?_, ?_, ?_⟩
  · cases ev with
    | eof =>
      intro hmem
      exact h (Finset.mem_of_mem_erase hmem)
    | ioError =>
      intro hmem
      exact h (Finset.mem_of_mem_erase hmem)
    | line s =>
      rw [readerStep]
      split
      · exact h
      · cases hd : decode (rustTrim s) with
        | none => simpa [hd] using h
        | some nd =>
          cases nd with
          | Message m =>
            simp only [hd]
            split
            · next hfrom =>
              intro hmem
              rcases Finset.mem_insert.mp hmem with he | he
              · exact hfrom he.symm
              · exact h he
            · exact h
          | PeerInfo pi2 =>
            simp only [hd]
            exact mergeKnownPeers_self_not_mem selfAddr pi2.known_peers peers h
  · intro hseed hmem
    rcases Finset.mem_insert.mp hmem with he | he
    · exact hseed he.symm
    · exact h he
  · intro hport
    rw [acceptHandshakeDir_eq]
    refine mergeKnownPeers_self_not_mem selfAddr pi.known_peers _ ?_
    intro hmem
    rcases Finset.mem_insert.mp hmem with he | he
    · exact hport he.symm
    · exact h he

/-- Claim C1, witness: the amended statement at a concrete node and inputs
(a merge whose list contains the local address, an EOF reader event, a
distinct seed, a handshake declaring a different port). -/
theorem self_never_in_directory_witness :
    (⟨"127.0.0.1", 9000⟩ : Addr)
        ∉ mergeKnownPeers ⟨"127.0.0.1", 9000⟩ ∅ [⟨"127.0.0.1", 9000⟩, ⟨"127.0.0.1", 9001⟩] ∧
    (⟨"127.0.0.1", 9000⟩ : Addr) ∉ dialDir ∅ ⟨"127.0.0.1", 9001⟩ ∧
    (⟨"127.0.0.1", 9000⟩ : Addr) ∉ acceptHandshakeDir ⟨"127.0.0.1", 9000⟩ ∅ ⟨9001, []⟩ := by
  have h := self_never_in_directory ⟨"127.0.0.1", 9000⟩ ⟨"127.0.0.1", 5⟩ ⟨"127.0.0.1", 9001⟩
    ∅ ⟨9001, []⟩ ReadEvent.eof [⟨"127.0.0.1", 9000⟩, ⟨"127.0.0.1", 9001⟩] (by decide)
  exact ⟨h.1, h.2.2.1 (by decide), h.2.2.2 (by decide)⟩

/-- Claim C2, counterexample: on the accept path the handshake records the
declared address 127.0.0.1:9001, but the reader duty removes the socket's
peer address (the remote's ephemeral endpoint, here 127.0.0.1:54321), so
the recorded address survives EOF. -/
theorem eof_leaves_recorded_address :
    acceptStep ⟨"127.0.0.1", 9000⟩ ∅
        (some (encode (NetworkData.PeerInfo ⟨9001, []⟩) ++ "\n"))
      = AcceptOutcome.connected {⟨"127.0.0.1", 9001⟩} ∧
    (⟨"127.0.0.1", 9001⟩ : Addr) ∈
      (readerStep ⟨"127.0.0.1", 9000⟩ ⟨"127.0.0.1", 54321⟩ {⟨"127.0.0.1", 9001⟩}
        ReadEvent.eof).peers := by
  decide

/-- Claim C2, amended: on EOF or read error the reader duty removes exactly
the link's socket peer address (which equals the recorded address only on
the dial path), and these are the only removals: every other directory
operation only grows the directory. -/
theorem eof_removes_link_address (selfAddr link seed : Addr) (peers : Finset Addr)
    (pi : PeerInfo) (kps : List Addr) (s : String) :
    (readerStep selfAddr link peers ReadEvent.eof).peers = peers.erase link ∧
    (readerStep selfAddr link peers ReadEvent.ioError).peers = peers.erase link ∧
    peers ⊆ (readerStep selfAddr link peers (ReadEvent.line s)).peers ∧
    peers ⊆ dialDir peers seed ∧
    peers ⊆ acceptHandshakeDir selfAddr peers pi ∧
    peers ⊆ mergeKnownPeers selfAddr peers kps :=
  ⟨rfl, rfl, readerStep_mono_line selfAddr link peers s,
    Finset.subset_insert seed peers, acceptHandshakeDir_mono selfAddr peers pi,
    mergeKnownPeers_mono selfAddr kps peers⟩

/-- Claim C3, counterexample: on a tick with one known peer, the single
relay item for the fresh message carries that peer's address as origin,
not the local address. -/
theorem gossip_origin_not_local :
    ¬ ((gossipTickMsgSends ⟨"127.0.0.1", 9000⟩ [⟨"127.0.0.1", 9001⟩] "j").length = 1 ∧
       ∀ item ∈ gossipTickMsgSends ⟨"127.0.0.1", 9000⟩ [⟨"127.0.0.1", 9001⟩] "j",
         item.2 = ⟨"127.0.0.1", 9000⟩) := by
  decide

/-- Claim C3, amended: on every tick the emitter publishes the encoded
message envelope once per snapshot entry different from the local address,
and each relay item's origin is that peer's address. -/
theorem gossip_one_send_per_peer (addr : Addr) (snapshot : List Addr) (json : String) :
    gossipTickMsgSends addr snapshot json
      = (snapshot.filter (fun p => p ≠ addr)).map (fun p => (json, p)) := by
  have aux : ∀ (l : List Addr) (acc : List (String × Addr)),
      l.foldl (fun acc p => if p ≠ addr then acc ++ [(json, p)] else acc) acc
        = acc ++ (l.filter (fun p => p ≠ addr)).map (fun p => (json, p)) := by
    intro l
    induction l with
    | nil => intro acc; simp
    | cons p t ih =>
      intro acc
      rw [List.foldl_cons]
      by_cases hp : p = addr
      · rw [ih]
        simp [hp]
      · rw [ih]
        simp [hp, List.filter_cons]
  rw [gossipTickMsgSends, aux snapshot []]
  simp

/-- Claim C4, counterexample: an undecodable first line (or a first-line
read error) does not drop the connection silently: the `.unwrap()` panics
the accept task, which therefore differs from the silent-drop outcome. -/
theorem bad_handshake_panics :
    acceptStep ⟨"127.0.0.1", 9000⟩ ∅ (some "hello\n") = AcceptOutcome.panicked ∧
    acceptStep ⟨"127.0.0.1", 9000⟩ ∅ none = AcceptOutcome.panicked ∧
    AcceptOutcome.panicked ≠ AcceptOutcome.dropped (∅ : Finset Addr) := by
  decide

/-- Claim C4, amended: a decodable first line of the wrong variant (a
Message) is discarded silently with the directory unchanged, but a
handshake read error or undecodable first line panics the accept task,
ending the accept loop. -/
theorem handshake_failure_modes (selfAddr : Addr) (peers : Finset Addr) (buf : String)
    (m : Message) :
    (decode buf = some (NetworkData.Message m) →
      acceptStep selfAddr peers (some buf) = AcceptOutcome.dropped peers) ∧
    (decode buf = none → acceptStep selfAddr peers (some buf) = AcceptOutcome.panicked) ∧
    acceptStep selfAddr peers none = AcceptOutcome.panicked := by
  refine ⟨?_, ?_, rfl⟩
  · intro h
    rw [acceptStep, h]
  · intro h
    rw [acceptStep, h]

/-- Claim C4, witness: the amended statement at a concrete Message first
line and at a read failure. -/
theorem handshake_failure_modes_witness :
    acceptStep ⟨"127.0.0.1", 9000⟩ ∅
        (some (encode (NetworkData.Message ⟨"1", ⟨"127.0.0.1", 9001⟩, 0⟩)))
      = AcceptOutcome.dropped ∅ ∧
    acceptStep ⟨"127.0.0.1", 9000⟩ ∅ none = AcceptOutcome.panicked := by
  have h := handshake_failure_modes ⟨"127.0.0.1", 9000⟩ ∅
    (encode (NetworkData.Message ⟨"1", ⟨"127.0.0.1", 9001⟩, 0⟩)) ⟨"1", ⟨"127.0.0.1", 9001⟩, 0⟩
  exact ⟨h.1 (by decide), h.2.2⟩

/-- Claim C5: every relay item a reader duty publishes carries this link's
address as origin, so the same link's writer duty, which writes only items
whose origin differs from the link address, never writes it back. -/
theorem no_echo_to_source_link (selfAddr linkAddr : Addr) (peers : Finset Addr)
    (ev : ReadEvent) (item : String × Addr)
    (h : item ∈ (readerStep selfAddr linkAddr peers ev).sends) :
    writerStep linkAddr item = none := by
  have horigin := readerStep_sends_origin selfAddr linkAddr peers ev item h
  simp [writerStep, horigin]

/-- Claim C5, witness: a concrete Message line received on a link is
published with that link's origin and filtered out by that link's writer. -/
theorem no_echo_to_source_link_witness :
    writerStep ⟨"127.0.0.1", 54321⟩
      (encode (NetworkData.Message ⟨"7", ⟨"127.0.0.1", 9002⟩, 5⟩), ⟨"127.0.0.1", 54321⟩)
      = none :=
  no_echo_to_source_link ⟨"127.0.0.1", 9000⟩ ⟨"127.0.0.1", 54321⟩ ∅
    (ReadEvent.line (encode (NetworkData.Message ⟨"7", ⟨"127.0.0.1", 9002⟩, 5⟩)))
    (encode (NetworkData.Message ⟨"7", ⟨"127.0.0.1", 9002⟩, 5⟩), ⟨"127.0.0.1", 54321⟩)
    (by decide)

/-- Claim C6, counterexample: the gossip emitter's relay payload already
ends in a newline and the writer appends another, so the bytes written for
such an item contain two newlines, not exactly one. -/
theorem emitter_write_two_newlines :
    writerStep ⟨"127.0.0.1", 54321⟩
        (gossipMessageJson ⟨"7", ⟨"127.0.0.1", 9000⟩, 0⟩, ⟨"127.0.0.1", 9001⟩)
      = some (gossipMessageJson ⟨"7", ⟨"127.0.0.1", 9000⟩, 0⟩ ++ "\n") ∧
    (gossipMessageJson ⟨"7", ⟨"127.0.0.1", 9000⟩, 0⟩ ++ "\n").data.count '\n' = 2 := by
  decide

/-- Claim C6, amended: a relay item republished by a reader duty (a trimmed
line, hence newline-free) is written with exactly one newline, at the end;
but a gossip-emitter item already carries a trailing newline and the
writer appends a second one, producing an empty line between envelopes. -/
theorem writer_framing (selfAddr a b : Addr) (peers : Finset Addr) (s : String)
    (item : String × Addr) (m : Message) (origin : Addr) :
    (item ∈ (readerStep selfAddr a peers (ReadEvent.line s)).sends → b ≠ a →
      '\n' ∉ s.data →
      writerStep b item = some (item.1 ++ "\n") ∧
      (item.1 ++ "\n").data.count '\n' = 1 ∧
      (item.1 ++ "\n").data.getLast? = some '\n') ∧
    (origin ≠ b →
      writerStep b (gossipMessageJson m, origin) = some (gossipMessageJson m ++ "\n") ∧
      (gossipMessageJson m ++ "\n").data.count '\n' = 2) := by
  constructor
  · intro hmem hba hnl
    have horigin := readerStep_sends_origin selfAddr a peers (ReadEvent.line s) item hmem
    have hpayload := readerStep_sends_payload selfAddr a peers s item hmem
    have hw : writerStep b item = some (item.1 ++ "\n") := by
      rw [writerStep, if_pos]
      rw [horigin]
      exact fun he => hba he.symm
    refine ⟨hw, ?_, ?_⟩
    · have hnot : '\n' ∉ item.1.data := by
        rw [hpayload]
        intro hc
        exact hnl (rustTrim_mem_subset s '\n' hc)
      rw [String.data_append]
      rw [List.count_append]
      rw [List.count_eq_zero.mpr hnot]
      rfl
    · rw [String.data_append]
      exact List.getLast?_concat _
  · intro hob
    have hw : writerStep b (gossipMessageJson m, origin)
        = some (gossipMessageJson m ++ "\n") := by
      rw [writerStep, if_pos hob]
    refine ⟨hw, ?_⟩
    rw [gossipMessageJson, String.data_append, String.data_append]
    rw [List.count_append, List.count_append]
    rw [List.count_eq_zero.mpr (encode_no_newline (NetworkData.Message m))]
    rfl

/-- Claim C6, witness: the amended statement at a concrete received line
(one newline written) and a concrete emitter item (two newlines written). -/
theorem writer_framing_witness :
    writerStep ⟨"127.0.0.1", 9005⟩
        (encode (NetworkData.Message ⟨"7", ⟨"127.0.0.1", 9002⟩, 5⟩), ⟨"127.0.0.1", 54321⟩)
      = some (encode (NetworkData.Message ⟨"7", ⟨"127.0.0.1", 9002⟩, 5⟩) ++ "\n") ∧
    (encode (NetworkData.Message ⟨"7", ⟨"127.0.0.1", 9002⟩, 5⟩) ++ "\n").data.count '\n' = 1 ∧
    writerStep ⟨"127.0.0.1", 9005⟩
        (gossipMessageJson ⟨"7", ⟨"127.0.0.1", 9000⟩, 0⟩, ⟨"127.0.0.1", 9001⟩)
      = some (gossipMessageJson ⟨"7", ⟨"127.0.0.1", 9000⟩, 0⟩ ++ "\n") := by
  have h := writer_framing ⟨"127.0.0.1", 9000⟩ ⟨"127.0.0.1", 54321⟩ ⟨"127.0.0.1", 9005⟩ ∅
    (encode (NetworkData.Message ⟨"7", ⟨"127.0.0.1", 9002⟩, 5⟩))
    (encode (NetworkData.Message ⟨"7", ⟨"127.0.0.1", 9002⟩, 5⟩), ⟨"127.0.0.1", 54321⟩)
    ⟨"7", ⟨"127.0.0.1", 9000⟩, 0⟩ ⟨"127.0.0.1", 9001⟩
  have h1 := h.1 (by decide) (by decide) (by decide)
  have h2 := h.2 (by decide)
  exact ⟨h1.1, h1.2.1, h2.1⟩

/-- Claim C7: over a whole run of the dedup filter from the empty seen-set,
each (content, timestamp) pair is surfaced at most once, however many relay
items deliver it. -/
theorem surfaced_at_most_once (addr : Addr) (events : List (String × Nat))
    (c : String) (t : Nat) :
    surfacedCount (dedupRun addr ∅ events).2 c t ≤ 1 :=
  dedupRun_le_one addr events ∅ c t

/-- Claim C8: a message whose timestamp t satisfies now > t + 10 when the
filter processes it is dropped without being surfaced and without touching
the seen-set, novel or not. -/
theorem stale_message_dropped (addr : Addr) (seen : Finset (String × Nat))
    (msg : String) (now : Nat) (m : Message)
    (hdec : decode (rustTrim msg) = some (NetworkData.Message m))
    (hstale : now > m.timestamp + 10) :
    dedupStep addr seen msg now = some (seen, none) := by
  rw [dedupStep, hdec]
  have hni : ¬ (m.«from» ≠ addr ∧ is_recent now m.timestamp = true) := by
    rintro ⟨_, hrec⟩
    rw [is_recent] at hrec
    simp at hrec
    omega
  simp [hni]

/-- Claim C8, witness: a never-seen message timestamped 0 processed at time
11 is dropped. -/
theorem stale_message_dropped_witness :
    dedupStep ⟨"127.0.0.1", 9000⟩ ∅
      (encode (NetworkData.Message ⟨"9", ⟨"127.0.0.1", 9001⟩, 0⟩)) 11 = some (∅, none) :=
  stale_message_dropped ⟨"127.0.0.1", 9000⟩ ∅
    (encode (NetworkData.Message ⟨"9", ⟨"127.0.0.1", 9001⟩, 0⟩)) 11
    ⟨"9", ⟨"127.0.0.1", 9001⟩, 0⟩ (by decide) (by decide)

/-- Claim C9: the wire codec round-trips every envelope of either variant,
including empty known_peers, port 65535 and timestamp 0. -/
theorem codec_roundtrip (x : NetworkData) : decode (encode x) = some x :=
  decode_encode x

/-- Claim C10: a line that is empty after trimming is skipped by the reader
duty: nothing is decoded or relayed, the directory is untouched, and the
loop continues. -/
theorem empty_line_skipped (selfAddr linkAddr : Addr) (peers : Finset Addr) (s : String)
    (h : rustTrim s = "") :
    readerStep selfAddr linkAddr peers (ReadEvent.line s)
      = ⟨peers, [], ReaderControl.next⟩ := by
  rw [readerStep, h]
  rfl

/-- Claim C10, witness: a line of whitespace only is skipped. -/
theorem empty_line_skipped_witness :
    readerStep ⟨"127.0.0.1", 9000⟩ ⟨"127.0.0.1", 9001⟩ ∅ (ReadEvent.line " \n")
      = ⟨∅, [], ReaderControl.next⟩ :=
  empty_line_skipped ⟨"127.0.0.1", 9000⟩ ⟨"127.0.0.1", 9001⟩ ∅ " \n" (by decide)

/-- Sanity: the encoder reproduces the field layout documented for the wire
protocol on a concrete Message envelope. -/
theorem encode_message_sample :
    encode (NetworkData.Message ⟨"42", ⟨"127.0.0.1", 8080⟩, 3⟩)
      = "\x7b\"type\":\"Message\",\"data\":\x7b\"content\":\"42\",\"from\":\"127.0.0.1:8080\",\"timestamp\":3\x7d\x7d" := by
  decide

/-- Sanity: the encoder reproduces the field layout on a concrete PeerInfo
envelope with a one-element peer list. -/
theorem encode_peerinfo_sample :
    encode (NetworkData.PeerInfo ⟨8080, [⟨"127.0.0.1", 9000⟩]⟩)
      = "\x7b\"type\":\"PeerInfo\",\"data\":\x7b\"port\":8080,\"known_peers\":[\"127.0.0.1:9000\"]\x7d\x7d" := by
  decide

end P2P
